import Mathlib

/-!
Verification of `scripts/make_boundary_translucent.py`: a shallow embedding of
its alpha-mode detector (`_detect_alpha_modes`), pixel remapper
(`transform_image`), and batch driver (`process_folder` / `main`), together
with theorems about the detection and remapping behaviour.
-/

/-- An RGBA pixel: four 8-bit channels, modelled as natural numbers. -/
structure Pixel where
  r : Nat
  g : Nat
  b : Nat
  a : Nat
deriving DecidableEq, Repr

/-- A decoded image: dimensions plus the grid of pixels in row-major order. -/
structure Image where
  width : Nat
  height : Nat
  pixels : List Pixel
deriving DecidableEq, Repr

/-- `hist[a]` after the counting loop (lines 94-100): the number of pixels whose
alpha equals `a`.  The loop only increments entries with `a > 0`, and the later
filter discards index 0, so counting all pixels with that alpha is equivalent. -/
def alphaCount (img : Image) (a : Nat) : Nat :=
  img.pixels.countP (fun p => decide (p.a = a))

/-- Line 102: `[(a, c) for a, c in enumerate(hist) if a > 0 and c > 0]`. -/
def nonZeroEntries (img : Image) : List (Nat × Nat) :=
  ((List.range 256).map (fun a => (a, alphaCount img a))).filter
    (fun t => decide (0 < t.1) && decide (0 < t.2))

/-- The sort order of line 105: `sort(key=lambda t: (t[1], t[0]), reverse=True)`.
`keyGE t u` holds when `t`'s (count, alpha) key is lexicographically at least
`u`'s, i.e. `t` sorts no later than `u` in the descending sort. -/
def keyGE (t u : Nat × Nat) : Prop :=
  u.2 < t.2 ∨ (u.2 = t.2 ∧ u.1 ≤ t.1)

instance : DecidableRel keyGE :=
  fun t u => inferInstanceAs (Decidable (u.2 < t.2 ∨ (u.2 = t.2 ∧ u.1 ≤ t.1)))

instance : IsTotal (Nat × Nat) keyGE :=
  ⟨fun t u => by unfold keyGE; omega⟩

instance : IsTrans (Nat × Nat) keyGE :=
  ⟨fun t u v h1 h2 => by unfold keyGE at *; omega⟩

/-- `_detect_alpha_modes` (lines 88-111).  The sorted list's first two entries
are the two most frequent non-zero alpha values (count ties broken towards the
larger alpha); the larger of the two alphas is reported as `high_mode`. -/
def detect_alpha_modes (img : Image) : Option Nat × Option Nat :=
  match List.insertionSort keyGE (nonZeroEntries img) with
  | [] => (none, none)
  | [(a, _)] => (some a, none)
  | (a, _) :: (b, _) :: _ => if b ≤ a then (some a, some b) else (some b, some a)

/-- The per-pixel rewrite of the loop body (lines 128-142). -/
def remapPixel (high_mode low_mode : Option Nat)
    (opaque_alpha transparent_alpha : Nat) (p : Pixel) : Pixel :=
  if (low_mode = none ∨ low_mode = some 0) ∧ 0 < p.a then
    { p with a := min opaque_alpha transparent_alpha }
  else if high_mode = some p.a then
    { p with a := opaque_alpha }
  else if low_mode = some p.a then
    { p with a := transparent_alpha }
  else p

/-- `changed` is incremented exactly when one of the three rewriting branches of
the loop body fires (lines 129-140). -/
def remapHits (high_mode low_mode : Option Nat) (p : Pixel) : Bool :=
  decide (((low_mode = none ∨ low_mode = some 0) ∧ 0 < p.a) ∨
    high_mode = some p.a ∨ low_mode = some p.a)

/-- The in-memory core of `transform_image` (lines 116-142): detect the modes,
then rewrite every pixel, returning the output image together with the final
`changed` counter.  The single Python loop both writes the output pixel and
bumps the counter; here the two are split into a `map` and a `countP` over the
same pixel list. -/
def transform_image (img : Image) (opaque_alpha transparent_alpha : Nat) :
    Image × Nat :=
  let modes := detect_alpha_modes img
  (⟨img.width, img.height,
    img.pixels.map (remapPixel modes.1 modes.2 opaque_alpha transparent_alpha)⟩,
   img.pixels.countP (remapHits modes.1 modes.2))

/-- A directory entry seen by `process_folder`: a file name and either the
decoded image or `none` when `Image.open` would raise on it. -/
structure FileEntry where
  name : String
  content : Option Image
deriving DecidableEq

/-- Line 157: `name.lower().endswith(".png")`, on the file name's character
sequence. -/
def isPngName (name : String) : Bool :=
  List.isSuffixOf ".png".data (name.data.map Char.toLower)

/-- Outputs written so far (name, transformed image) and the running count. -/
abbrev BatchOut := List (String × Image) × Nat

/-- The per-file loop of `process_folder` (lines 156-162).  Opening a file that
cannot be decoded raises inside `transform_image` (line 115) and the exception
propagates, aborting the loop; both outcomes carry the outputs written and the
count reached before the abort. -/
def processFiles (opaque_alpha transparent_alpha : Nat) :
    List FileEntry → Except BatchOut BatchOut
  | [] => Except.ok ([], 0)
  | f :: rest =>
    if isPngName f.name then
      match f.content with
      | none => Except.error ([], 0)
      | some img =>
        let out := (transform_image img opaque_alpha transparent_alpha).1
        match processFiles opaque_alpha transparent_alpha rest with
        | Except.ok (outs, n) => Except.ok ((f.name, out) :: outs, n + 1)
        | Except.error (outs, n) => Except.error ((f.name, out) :: outs, n + 1)
    else
      processFiles opaque_alpha transparent_alpha rest

/-- `process_folder` (lines 150-163): a missing directory is skipped with a
message and contributes 0; otherwise every `.png` entry is transformed. -/
def process_folder (dir : Option (List FileEntry))
    (opaque_alpha transparent_alpha : Nat) : Except BatchOut BatchOut :=
  match dir with
  | none => Except.ok ([], 0)
  | some files => processFiles opaque_alpha transparent_alpha files

/-- The input assets of one run: the three folders (each `none` when the
directory is missing) and the border file (`none` when `os.path.isfile` is
false, `some none` when present but undecodable). -/
structure Inputs where
  edges : Option (List FileEntry)
  corners : Option (List FileEntry)
  centers : Option (List FileEntry)
  border : Option (Option Image)
deriving DecidableEq

/-- One iteration of the loop of `main` (lines 168-176) for a single variant:
the three folders then the border file; any uncaught decode error propagates. -/
def runVariant (inp : Inputs) (opaque_alpha transparent_alpha : Nat) :
    Except Unit Nat :=
  match process_folder inp.edges opaque_alpha transparent_alpha with
  | Except.error _ => Except.error ()
  | Except.ok (_, n1) =>
    match process_folder inp.corners opaque_alpha transparent_alpha with
    | Except.error _ => Except.error ()
    | Except.ok (_, n2) =>
      match process_folder inp.centers opaque_alpha transparent_alpha with
      | Except.error _ => Except.error ()
      | Except.ok (_, n3) =>
        match inp.border with
        | none => Except.ok (n1 + n2 + n3)
        | some none => Except.error ()
        | some (some img) =>
          let _ := transform_image img opaque_alpha transparent_alpha
          Except.ok (n1 + n2 + n3 + 1)

/-- The variant loop of `main`, accumulating the running total. -/
def runVariants (inp : Inputs) : List (Nat × Nat) → Nat → Except Unit Nat
  | [], total => Except.ok total
  | (oa, ta) :: rest, total =>
    match runVariant inp oa ta with
    | Except.error _ => Except.error ()
    | Except.ok n => runVariants inp rest (total + n)

/-- The 8-bit targets of the three configured variants, i.e.
`int(round(255 * fraction))` for the fractions of `VARIANTS` (lines 46-50,
169-170): a40_15 -> (102, 38), a20_075 -> (51, 19), a10_25 -> (26, 64). -/
def VARIANT_TARGETS : List (Nat × Nat) := [(102, 38), (51, 19), (26, 64)]

/-- `main` (lines 166-178): on success returns the grand total (and exit code
0 via `sys.exit(main())`); a decode error is never caught, so it escapes
`main` and the interpreter terminates with a non-zero status. -/
def script_main (inp : Inputs) : Except Unit Nat :=
  runVariants inp VARIANT_TARGETS 0

/-- Process exit status: 0 on a normal return of `main`, 1 when the uncaught
exception aborts the interpreter. -/
def exitStatus : Except Unit Nat → Nat
  | Except.ok _ => 0
  | Except.error _ => 1

/-! Concrete images used by witnesses and counterexamples. -/

/-- The 2x1 image of the spec's concrete scenarios:
pixels (255,0,0,102) and (0,255,0,38). -/
def demo2 : Image := ⟨2, 1, [⟨255, 0, 0, 102⟩, ⟨0, 255, 0, 38⟩]⟩

/-- `demo2` with its two pixels swapped (same histogram, different order). -/
def demo2r : Image := ⟨2, 1, [⟨0, 255, 0, 38⟩, ⟨255, 0, 0, 102⟩]⟩

/-- A 2x1 image with a single non-zero alpha value (200). -/
def demo1 : Image := ⟨2, 1, [⟨10, 20, 30, 200⟩, ⟨0, 0, 0, 0⟩]⟩

/-- A 1x1 fully transparent image. -/
def demo0 : Image := ⟨1, 1, [⟨5, 6, 7, 0⟩]⟩

/-- Number of positions at which two pixel lists differ in alpha. -/
def alphaDiffCount (xs ys : List Pixel) : Nat :=
  (xs.zip ys).countP (fun t => decide (t.1.a ≠ t.2.a))

/-! ### Histogram and detector lemmas -/

theorem alphaCount_pos {img : Image} {a : Nat} :
    0 < alphaCount img a ↔ ∃ p ∈ img.pixels, p.a = a := by
  unfold alphaCount
  rw [List.countP_pos_iff]
  simp

theorem mem_nonZeroEntries {img : Image} {e : Nat × Nat} :
    e ∈ nonZeroEntries img ↔
      0 < e.1 ∧ e.1 < 256 ∧ e.2 = alphaCount img e.1 ∧ 0 < e.2 := by
  unfold nonZeroEntries
  simp only [List.mem_filter, List.mem_map, List.mem_range, Bool.and_eq_true,
    decide_eq_true_eq]
  constructor
  · rintro ⟨⟨a, ha, rfl⟩, h1, h2⟩
    exact ⟨h1, ha, rfl, h2⟩
  · rintro ⟨h1, h2, h3, h4⟩
    obtain ⟨a, c⟩ := e
    simp only at h3
    subst h3
    exact ⟨⟨a, h2, rfl⟩, h1, h4⟩

theorem nonZeroEntries_pairwise (img : Image) :
    (nonZeroEntries img).Pairwise (fun e f => e.1 < f.1) := by
  unfold nonZeroEntries
  apply List.Pairwise.filter
  rw [List.pairwise_map]
  exact List.pairwise_lt_range 256

/-- The alphas of the histogram entries, after any permutation, stay pairwise
distinct. -/
theorem nonZeroEntries_fst_nodup (img : Image) {l : List (Nat × Nat)}
    (hp : List.Perm l (nonZeroEntries img)) : (l.map Prod.fst).Nodup := by
  have h1 : ((nonZeroEntries img).map Prod.fst).Nodup := by
    have h2 := (nonZeroEntries_pairwise img).imp (fun h => Nat.ne_of_lt h)
    exact (List.pairwise_map).2 h2
  exact ((hp.map Prod.fst).symm).nodup h1

/-- Entries of the histogram are pairs (alpha, count of that alpha). -/
theorem mem_entry_eta {img : Image} {e : Nat × Nat} (he : e ∈ nonZeroEntries img) :
    (e.1, alphaCount img e.1) = e := by
  have h := (mem_nonZeroEntries.1 he).2.2.1
  rw [← h]

/-- `_detect_alpha_modes` by empty histogram. -/
theorem detect_empty (img : Image) (he : nonZeroEntries img = []) :
    detect_alpha_modes img = (none, none) := by
  unfold detect_alpha_modes
  rw [he]
  rfl

/-- `_detect_alpha_modes` on a one-entry histogram. -/
theorem detect_single (img : Image) {e : Nat × Nat} (he : nonZeroEntries img = [e]) :
    detect_alpha_modes img = (some e.1, none) := by
  obtain ⟨a, c⟩ := e
  unfold detect_alpha_modes
  rw [he]
  rfl

/-- Case analysis on the shape of the sorted histogram entry list. -/
theorem detect_cases (img : Image) :
    (nonZeroEntries img = [] ∧ detect_alpha_modes img = (none, none)) ∨
    (∃ e, nonZeroEntries img = [e] ∧ detect_alpha_modes img = (some e.1, none)) ∨
    (∃ t1 t2 rest, List.insertionSort keyGE (nonZeroEntries img) = t1 :: t2 :: rest ∧
      detect_alpha_modes img =
        (if t2.1 ≤ t1.1 then (some t1.1, some t2.1) else (some t2.1, some t1.1))) := by
  have hperm := List.perm_insertionSort keyGE (nonZeroEntries img)
  rcases hs : List.insertionSort keyGE (nonZeroEntries img) with _ | ⟨⟨a, c⟩, _ | ⟨⟨b, d⟩, rest⟩⟩
  · rw [hs] at hperm
    have he : nonZeroEntries img = [] := hperm.symm.eq_nil
    exact Or.inl ⟨he, detect_empty img he⟩
  · rw [hs] at hperm
    have he : nonZeroEntries img = [(a, c)] := (List.singleton_perm.1 hperm).symm
    exact Or.inr (Or.inl ⟨(a, c), he, detect_single img he⟩)
  · refine Or.inr (Or.inr ⟨(a, c), (b, d), rest, rfl, ?_⟩)
    unfold detect_alpha_modes
    rw [hs]

/-- Any reported mode is a histogram entry (paired with its own count). -/
theorem detect_mem (img : Image) :
    (∀ m, (detect_alpha_modes img).1 = some m →
      (m, alphaCount img m) ∈ nonZeroEntries img) ∧
    (∀ m, (detect_alpha_modes img).2 = some m →
      (m, alphaCount img m) ∈ nonZeroEntries img) := by
  rcases detect_cases img with ⟨he, hd⟩ | ⟨e, he, hd⟩ | ⟨t1, t2, rest, hs, hd⟩
  · rw [hd]
    exact ⟨fun m h => by simp at h, fun m h => by simp at h⟩
  · rw [hd]
    have hm : e ∈ nonZeroEntries img := by rw [he]; simp
    constructor
    · intro m h
      simp only [Option.some.injEq] at h
      subst h
      rw [mem_entry_eta hm]
      exact hm
    · intro m h
      simp at h
  · have hperm := List.perm_insertionSort keyGE (nonZeroEntries img)
    rw [hs] at hperm
    have h1 : t1 ∈ nonZeroEntries img := hperm.subset (by simp)
    have h2 : t2 ∈ nonZeroEntries img := hperm.subset (by simp)
    rw [hd]
    by_cases hle : t2.1 ≤ t1.1
    · rw [if_pos hle]
      constructor
      · intro m h
        simp only [Option.some.injEq] at h
        subst h
        rw [mem_entry_eta h1]
        exact h1
      · intro m h
        simp only [Option.some.injEq] at h
        subst h
        rw [mem_entry_eta h2]
        exact h2
    · rw [if_neg hle]
      constructor
      · intro m h
        simp only [Option.some.injEq] at h
        subst h
        rw [mem_entry_eta h2]
        exact h2
      · intro m h
        simp only [Option.some.injEq] at h
        subst h
        rw [mem_entry_eta h1]
        exact h1

/-- Any reported mode is a non-zero 8-bit alpha value with positive count. -/
theorem detect_pos (img : Image) :
    (∀ m, (detect_alpha_modes img).1 = some m →
      0 < m ∧ m ≤ 255 ∧ 0 < alphaCount img m) ∧
    (∀ m, (detect_alpha_modes img).2 = some m →
      0 < m ∧ m ≤ 255 ∧ 0 < alphaCount img m) := by
  constructor
  · intro m hm
    have h := mem_nonZeroEntries.1 ((detect_mem img).1 m hm)
    exact ⟨h.1, by omega, by simpa using h.2.2.2⟩
  · intro m hm
    have h := mem_nonZeroEntries.1 ((detect_mem img).2 m hm)
    exact ⟨h.1, by omega, by simpa using h.2.2.2⟩

/-- When both modes are reported, the high mode is strictly larger. -/
theorem detect_lt (img : Image) :
    ∀ hm lm, detect_alpha_modes img = (some hm, some lm) → lm < hm := by
  rcases detect_cases img with ⟨_, hd⟩ | ⟨e, _, hd⟩ | ⟨t1, t2, rest, hs, hd⟩ <;>
    intro hm lm h <;> rw [hd] at h
  · simp at h
  · simp at h
  · have hperm := List.perm_insertionSort keyGE (nonZeroEntries img)
    rw [hs] at hperm
    have hnd := nonZeroEntries_fst_nodup img hperm
    simp only [List.map_cons] at hnd
    have hne : t1.1 ≠ t2.1 := by
      intro hc
      exact (List.nodup_cons.1 hnd).1 (by simp [hc])
    by_cases hle : t2.1 ≤ t1.1
    · rw [if_pos hle] at h
      simp only [Prod.mk.injEq, Option.some.injEq] at h
      omega
    · rw [if_neg hle] at h
      simp only [Prod.mk.injEq, Option.some.injEq] at h
      omega

/-- Two distinct members force length at least two. -/
theorem two_le_length_of_mem {l : List (Nat × Nat)} {e f : Nat × Nat}
    (he : e ∈ l) (hf : f ∈ l) (hne : e ≠ f) : 2 ≤ l.length := by
  match l with
  | [] => cases he
  | [x] =>
    simp only [List.mem_singleton] at he hf
    exact absurd (he.trans hf.symm) hne
  | x :: y :: t => simp

/-- A list with pairwise increasing alphas whose members all equal `e` is `[e]`. -/
theorem eq_singleton_of_all_eq {l : List (Nat × Nat)} {e : Nat × Nat}
    (hp : l.Pairwise (fun u v => u.1 < v.1)) (he : e ∈ l)
    (hall : ∀ u ∈ l, u = e) : l = [e] := by
  match l with
  | [] => cases he
  | [x] => rw [hall x (by simp)]
  | x :: y :: t =>
    have hx := hall x (by simp)
    have hy := hall y (by simp)
    rw [List.pairwise_cons] at hp
    have hxy := hp.1 y (by simp)
    rw [hx, hy] at hxy
    exact absurd hxy (lt_irrefl _)

/-- The two-or-more entry case: the detector picks the two sort-maximal
histogram entries (`t1`, `t2`), every other entry is strictly dominated by both
under the (count, alpha) key, and the larger alpha is reported as high mode. -/
theorem detect_top_two (img : Image) (h2 : 2 ≤ (nonZeroEntries img).length) :
    ∃ t1 t2, t1 ∈ nonZeroEntries img ∧ t2 ∈ nonZeroEntries img ∧ t1.1 ≠ t2.1 ∧
      (∀ e ∈ nonZeroEntries img, e = t1 ∨ e = t2 ∨
        (keyGE t1 e ∧ keyGE t2 e ∧ e.1 ≠ t1.1 ∧ e.1 ≠ t2.1)) ∧
      detect_alpha_modes img = (some (max t1.1 t2.1), some (min t1.1 t2.1)) := by
  rcases detect_cases img with ⟨he, _⟩ | ⟨e, he, _⟩ | ⟨t1, t2, rest, hs, hd⟩
  · rw [he] at h2
    simp at h2
  · rw [he] at h2
    simp at h2
  · have hperm := List.perm_insertionSort keyGE (nonZeroEntries img)
    rw [hs] at hperm
    have hsort := List.sorted_insertionSort keyGE (nonZeroEntries img)
    rw [hs] at hsort
    have hnd := nonZeroEntries_fst_nodup img hperm
    simp only [List.map_cons] at hnd
    have hnd1 := List.nodup_cons.1 hnd
    have hnd2 := List.nodup_cons.1 hnd1.2
    have hne : t1.1 ≠ t2.1 := by
      intro hc
      exact hnd1.1 (by simp [hc])
    have h1 : t1 ∈ nonZeroEntries img := hperm.subset (by simp)
    have h2m : t2 ∈ nonZeroEntries img := hperm.subset (by simp)
    rw [List.sorted_cons] at hsort
    have hsort2 := hsort.2
    rw [List.sorted_cons] at hsort2
    refine ⟨t1, t2, h1, h2m, hne, ?_, ?_⟩
    · intro e hee
      have hmem : e ∈ t1 :: t2 :: rest := hperm.symm.subset hee
      rcases List.mem_cons.1 hmem with rfl | hmem2
      · exact Or.inl rfl
      rcases List.mem_cons.1 hmem2 with rfl | hr
      · exact Or.inr (Or.inl rfl)
      refine Or.inr (Or.inr ⟨hsort.1 e (List.mem_cons_of_mem _ hr), hsort2.1 e hr, ?_, ?_⟩)
      · intro hc
        exact hnd1.1 (List.mem_cons_of_mem _ (hc ▸ List.mem_map_of_mem Prod.fst hr))
      · intro hc
        exact hnd2.1 (hc ▸ List.mem_map_of_mem Prod.fst hr)
    · rw [hd]
      by_cases hle : t2.1 ≤ t1.1
      · rw [if_pos hle, Nat.max_eq_left hle, Nat.min_eq_right hle]
      · have hlt : t1.1 < t2.1 := Nat.lt_of_not_le hle
        rw [if_neg hle, Nat.max_eq_right hlt.le, Nat.min_eq_left hlt.le]

/-! ### Occurrence predicates and remapper helper lemmas -/

/-- Every pixel's alpha fits in 8 bits, as the RGBA decoder guarantees. -/
def AlphaValid (img : Image) : Prop := ∀ p ∈ img.pixels, p.a ≤ 255

/-- `a` is a non-zero alpha value occurring in `img`. -/
def alphaOccurs (img : Image) (a : Nat) : Prop := 0 < a ∧ 0 < alphaCount img a

instance (img : Image) : Decidable (AlphaValid img) :=
  inferInstanceAs (Decidable (∀ p ∈ img.pixels, p.a ≤ 255))

instance (img : Image) (a : Nat) : Decidable (alphaOccurs img a) :=
  inferInstanceAs (Decidable (0 < a ∧ 0 < alphaCount img a))

/-- `a`'s (count, alpha) sort key is lexicographically strictly below `b`'s. -/
def keyBelow (img : Image) (a b : Nat) : Prop :=
  alphaCount img a < alphaCount img b ∨
    (alphaCount img a = alphaCount img b ∧ a < b)

theorem occurs_entry_mem {img : Image} (hv : AlphaValid img) {a : Nat}
    (ha : alphaOccurs img a) : (a, alphaCount img a) ∈ nonZeroEntries img := by
  rw [mem_nonZeroEntries]
  refine ⟨ha.1, ?_, rfl, ha.2⟩
  obtain ⟨p, hp, hpa⟩ := alphaCount_pos.1 ha.2
  have := hv p hp
  omega

theorem entry_occurs {img : Image} {t : Nat × Nat} (ht : t ∈ nonZeroEntries img) :
    alphaOccurs img t.1 := by
  have e := mem_nonZeroEntries.1 ht
  exact ⟨e.1, e.2.2.1 ▸ e.2.2.2⟩

/-- Being key-dominated by a histogram entry with a different alpha is strict. -/
theorem keyGE_strict {img : Image} {t : Nat × Nat} {a : Nat}
    (ht : t ∈ nonZeroEntries img) (hk : keyGE t (a, alphaCount img a))
    (hne : a ≠ t.1) : keyBelow img a t.1 := by
  obtain ⟨a1, c1⟩ := t
  have e := mem_nonZeroEntries.1 ht
  unfold keyGE at hk
  unfold keyBelow
  dsimp only at e hk hne ⊢
  omega

theorem transform_image_fst (img : Image) (oa ta : Nat) :
    (transform_image img oa ta).1 =
      ⟨img.width, img.height, img.pixels.map
        (remapPixel (detect_alpha_modes img).1 (detect_alpha_modes img).2 oa ta)⟩ :=
  rfl

theorem transform_image_snd (img : Image) (oa ta : Nat) :
    (transform_image img oa ta).2 =
      img.pixels.countP
        (remapHits (detect_alpha_modes img).1 (detect_alpha_modes img).2) :=
  rfl

theorem remapPixel_rgb (hm lm : Option Nat) (oa ta : Nat) (p : Pixel) :
    (remapPixel hm lm oa ta p).r = p.r ∧ (remapPixel hm lm oa ta p).g = p.g ∧
      (remapPixel hm lm oa ta p).b = p.b := by
  unfold remapPixel
  split
  · exact ⟨rfl, rfl, rfl⟩
  · split
    · exact ⟨rfl, rfl, rfl⟩
    · split
      · exact ⟨rfl, rfl, rfl⟩
      · exact ⟨rfl, rfl, rfl⟩

/-! ### Claim theorems -/

/-- C10: every mode the detector reports is an alpha value in 1..255 whose
histogram count is positive, and when both modes are present the high mode is
strictly greater than the low mode. -/
theorem detect_modes_sound (img : Image) :
    (∀ m, (detect_alpha_modes img).1 = some m →
      1 ≤ m ∧ m ≤ 255 ∧ 0 < alphaCount img m) ∧
    (∀ m, (detect_alpha_modes img).2 = some m →
      1 ≤ m ∧ m ≤ 255 ∧ 0 < alphaCount img m) ∧
    (∀ hm lm, detect_alpha_modes img = (some hm, some lm) → lm < hm) :=
  ⟨(detect_pos img).1, (detect_pos img).2, detect_lt img⟩

theorem detect_modes_sound_witness :
    detect_alpha_modes demo2 = (some 102, some 38) ∧
    (1 ≤ 102 ∧ 102 ≤ 255 ∧ 0 < alphaCount demo2 102) ∧
    (1 ≤ 38 ∧ 38 ≤ 255 ∧ 0 < alphaCount demo2 38) ∧ 38 < 102 :=
  ⟨by decide, (detect_modes_sound demo2).1 102 (by decide),
   (detect_modes_sound demo2).2.1 38 (by decide),
   (detect_modes_sound demo2).2.2 102 38 (by decide)⟩

/-- C9: the detector is deterministic — a second run on the same image gives
the same result, and more strongly the result only depends on the alpha
histogram. -/
theorem detector_deterministic (img img2 : Image)
    (hc : ∀ a ∈ List.range 256, alphaCount img a = alphaCount img2 a) :
    detect_alpha_modes img = detect_alpha_modes img ∧
    detect_alpha_modes img = detect_alpha_modes img2 := by
  refine ⟨rfl, ?_⟩
  have he : nonZeroEntries img = nonZeroEntries img2 := by
    unfold nonZeroEntries
    have hm : (List.range 256).map (fun a => (a, alphaCount img a)) =
        (List.range 256).map (fun a => (a, alphaCount img2 a)) :=
      List.map_congr_left (fun a ha => by rw [hc a ha])
    rw [hm]
  unfold detect_alpha_modes
  rw [he]

set_option maxRecDepth 4000 in
theorem detector_deterministic_witness :
    (∀ a ∈ List.range 256, alphaCount demo2 a = alphaCount demo2r a) ∧
    detect_alpha_modes demo2 = detect_alpha_modes demo2 ∧
    detect_alpha_modes demo2 = detect_alpha_modes demo2r :=
  ⟨by decide, detector_deterministic demo2 demo2r (by decide)⟩

/-- C7: on an image where every pixel is fully transparent the detector reports
no modes and the remapper returns the image unchanged. -/
theorem all_transparent_noop (img : Image) (h0 : ∀ p ∈ img.pixels, p.a = 0)
    (opaque_alpha transparent_alpha : Nat) :
    detect_alpha_modes img = (none, none) ∧
    (transform_image img opaque_alpha transparent_alpha).1 = img := by
  have he : nonZeroEntries img = [] := by
    rw [List.eq_nil_iff_forall_not_mem]
    intro e hee
    obtain ⟨hepos, _, hecount, hcpos⟩ := mem_nonZeroEntries.1 hee
    obtain ⟨p, hp, hpa⟩ := alphaCount_pos.1 (hecount ▸ hcpos)
    have := h0 p hp
    omega
  have hd := detect_empty img he
  refine ⟨hd, ?_⟩
  have hmap : img.pixels.map
      (remapPixel (detect_alpha_modes img).1 (detect_alpha_modes img).2
        opaque_alpha transparent_alpha) = img.pixels := by
    apply List.map_congr_left ?_ |>.trans (List.map_id _)
    intro p hp
    rw [hd]
    simp [remapPixel, h0 p hp]
  rw [transform_image_fst, hmap]

theorem all_transparent_noop_witness :
    (∀ p ∈ demo0.pixels, p.a = 0) ∧
    detect_alpha_modes demo0 = (none, none) ∧
    (transform_image demo0 102 38).1 = demo0 :=
  ⟨by decide, all_transparent_noop demo0 (by decide) 102 38⟩

/-- If the rewriting loop changes a pixel of an 8-bit image at all, that
pixel's alpha equals one of the detected modes: in the low-mode-absent branch
the rewritten pixel has alpha > 0, so its alpha is the single histogram entry,
which is exactly the reported high mode; the other two branches test mode
equality directly. -/
theorem remapPixel_ne_imp {img : Image} (hv : AlphaValid img) {p : Pixel}
    (hp : p ∈ img.pixels) (oa ta : Nat)
    (hne : remapPixel (detect_alpha_modes img).1 (detect_alpha_modes img).2
      oa ta p ≠ p) :
    (detect_alpha_modes img).1 = some p.a ∨
    (detect_alpha_modes img).2 = some p.a := by
  by_cases h1 : ((detect_alpha_modes img).2 = none ∨
      (detect_alpha_modes img).2 = some 0) ∧ 0 < p.a
  · left
    have hlow : (detect_alpha_modes img).2 = none := by
      rcases h1.1 with h | h
      · exact h
      · have := (detect_pos img).2 0 h
        omega
    have hcount : 0 < alphaCount img p.a := alphaCount_pos.2 ⟨p, hp, rfl⟩
    have hmem : (p.a, alphaCount img p.a) ∈ nonZeroEntries img := by
      rw [mem_nonZeroEntries]
      exact ⟨h1.2, by have := hv p hp; omega, rfl, hcount⟩
    rcases detect_cases img with ⟨he, hd⟩ | ⟨e, he, hd⟩ | ⟨t1, t2, rest, hs, hd⟩
    · rw [he] at hmem
      cases hmem
    · rw [he, List.mem_singleton] at hmem
      rw [hd, ← hmem]
    · exfalso
      rw [hd] at hlow
      by_cases hle : t2.1 ≤ t1.1 <;> simp [hle] at hlow
  · unfold remapPixel at hne
    rw [if_neg h1] at hne
    by_cases h2 : (detect_alpha_modes img).1 = some p.a
    · exact Or.inl h2
    · rw [if_neg h2] at hne
      by_cases h3 : (detect_alpha_modes img).2 = some p.a
      · exact Or.inr h3
      · rw [if_neg h3] at hne
        exact absurd rfl hne

/-- C6: for every input and target pair, the remapper preserves width, height
and pixel count, and each output pixel keeps its input pixel's RGB channels;
moreover (for 8-bit images, as the decoder guarantees) only the alpha channels
of pixels whose alpha matches a detected mode are ever modified: a pixel whose
output alpha differs from its input alpha has its input alpha equal to the
detected high or low mode. -/
theorem transform_preserves_structure (img : Image)
    (opaque_alpha transparent_alpha : Nat) :
    (transform_image img opaque_alpha transparent_alpha).1.width = img.width ∧
    (transform_image img opaque_alpha transparent_alpha).1.height = img.height ∧
    (transform_image img opaque_alpha transparent_alpha).1.pixels.length =
      img.pixels.length ∧
    List.Forall₂ (fun p q => q.r = p.r ∧ q.g = p.g ∧ q.b = p.b)
      img.pixels (transform_image img opaque_alpha transparent_alpha).1.pixels ∧
    (AlphaValid img →
      List.Forall₂ (fun p q => q.a ≠ p.a →
          (detect_alpha_modes img).1 = some p.a ∨
          (detect_alpha_modes img).2 = some p.a)
        img.pixels
        (transform_image img opaque_alpha transparent_alpha).1.pixels) := by
  refine ⟨rfl, rfl, by rw [transform_image_fst]; exact List.length_map _ _,
    ?_, ?_⟩
  · rw [transform_image_fst]
    show List.Forall₂ _ img.pixels (img.pixels.map _)
    rw [List.forall₂_map_right_iff]
    exact List.forall₂_same.2 (fun p _ => remapPixel_rgb _ _ _ _ p)
  · intro hv
    rw [transform_image_fst]
    show List.Forall₂ _ img.pixels (img.pixels.map _)
    rw [List.forall₂_map_right_iff]
    refine List.forall₂_same.2 (fun p hp hne => ?_)
    exact remapPixel_ne_imp hv hp opaque_alpha transparent_alpha
      (fun h => hne (congrArg Pixel.a h))

theorem transform_preserves_structure_witness :
    AlphaValid demo2 ∧
    List.Forall₂ (fun p q => q.a ≠ p.a →
        (detect_alpha_modes demo2).1 = some p.a ∨
        (detect_alpha_modes demo2).2 = some p.a)
      demo2.pixels (transform_image demo2 26 64).1.pixels :=
  ⟨by decide,
   (transform_preserves_structure demo2 26 64).2.2.2.2 (by decide)⟩

/-- C3: when the detected low mode is absent, remapping sets every pixel with
positive alpha to the smaller of the two targets and leaves alpha-0 pixels
untouched. -/
theorem single_mode_remap (img : Image) (opaque_alpha transparent_alpha : Nat)
    (hl : (detect_alpha_modes img).2 = none)
    (ho : opaque_alpha ≤ 255) (ht : transparent_alpha ≤ 255) :
    (transform_image img opaque_alpha transparent_alpha).1.pixels =
      img.pixels.map (fun p =>
        if 0 < p.a then { p with a := min opaque_alpha transparent_alpha }
        else p) := by
  rw [transform_image_fst]
  apply List.map_congr_left
  intro p hp
  by_cases hpa : 0 < p.a
  · rw [if_pos hpa]
    unfold remapPixel
    rw [if_pos ⟨Or.inl hl, hpa⟩]
  · rw [if_neg hpa]
    have hhigh : ¬ (detect_alpha_modes img).1 = some p.a := by
      intro hcon
      have h := (detect_pos img).1 p.a hcon
      omega
    have hlow : ¬ (detect_alpha_modes img).2 = some p.a := by
      rw [hl]
      simp
    unfold remapPixel
    rw [if_neg (fun hcon => hpa hcon.2), if_neg hhigh, if_neg hlow]

theorem single_mode_remap_witness :
    (detect_alpha_modes demo1).2 = none ∧ 102 ≤ 255 ∧ 38 ≤ 255 ∧
    (transform_image demo1 102 38).1.pixels =
      demo1.pixels.map (fun p =>
        if 0 < p.a then { p with a := min 102 38 } else p) :=
  ⟨by decide, by decide, by decide,
   single_mode_remap demo1 102 38 (by decide) (by decide) (by decide)⟩

/-- C2: with at least two distinct occurring non-zero alphas, the detector
returns the two alphas with greatest counts (count ties broken towards the
larger alpha: every non-selected occurring alpha is strictly below both
selected ones in the (count, alpha) order), reporting the larger selected
alpha as high mode; with exactly one occurring value V it returns (V, none). -/
theorem detector_selects_top_two (img : Image) (hv : AlphaValid img) :
    (∀ A B, alphaOccurs img A → alphaOccurs img B → A ≠ B →
      ∃ hm lm, detect_alpha_modes img = (some hm, some lm) ∧ lm < hm ∧
        alphaOccurs img hm ∧ alphaOccurs img lm ∧
        ∀ a, alphaOccurs img a → a ≠ hm → a ≠ lm →
          keyBelow img a hm ∧ keyBelow img a lm) ∧
    (∀ V, alphaOccurs img V → (∀ a, alphaOccurs img a → a = V) →
      detect_alpha_modes img = (some V, none)) := by
  constructor
  · intro A B hA hB hAB
    have hmA := occurs_entry_mem hv hA
    have hmB := occurs_entry_mem hv hB
    have hlen : 2 ≤ (nonZeroEntries img).length :=
      two_le_length_of_mem hmA hmB (by simp [Prod.mk.injEq, hAB])
    obtain ⟨t1, t2, h1, h2, hne, hdom, hd⟩ := detect_top_two img hlen
    have ho1 := entry_occurs h1
    have ho2 := entry_occurs h2
    refine ⟨max t1.1 t2.1, min t1.1 t2.1, hd, by omega, ?_, ?_, ?_⟩
    · rcases Nat.le_total t1.1 t2.1 with h | h
      · rw [Nat.max_eq_right h]
        exact ho2
      · rw [Nat.max_eq_left h]
        exact ho1
    · rcases Nat.le_total t1.1 t2.1 with h | h
      · rw [Nat.min_eq_left h]
        exact ho1
      · rw [Nat.min_eq_right h]
        exact ho2
    · intro a ha hahm halm
      have hmem := occurs_entry_mem hv ha
      have hb1 : keyBelow img a t1.1 ∧ keyBelow img a t2.1 := by
        rcases hdom (a, alphaCount img a) hmem with h | h | h
        · exfalso
          have ha1 : a = t1.1 := congrArg Prod.fst h
          omega
        · exfalso
          have ha2 : a = t2.1 := congrArg Prod.fst h
          omega
        · exact ⟨keyGE_strict h1 h.1 h.2.2.1, keyGE_strict h2 h.2.1 h.2.2.2⟩
      rcases Nat.le_total t1.1 t2.1 with h | h
      · rw [Nat.max_eq_right h, Nat.min_eq_left h]
        exact ⟨hb1.2, hb1.1⟩
      · rw [Nat.max_eq_left h, Nat.min_eq_right h]
        exact hb1
  · intro V hV hall
    have hmV := occurs_entry_mem hv hV
    have hsingle : nonZeroEntries img = [(V, alphaCount img V)] := by
      apply eq_singleton_of_all_eq (nonZeroEntries_pairwise img) hmV
      intro u hu
      have hoccu := entry_occurs hu
      have huV := hall u.1 hoccu
      rw [← mem_entry_eta hu, huV]
    exact detect_single img hsingle

theorem detector_selects_top_two_witness :
    AlphaValid demo2 ∧ alphaOccurs demo2 102 ∧ alphaOccurs demo2 38 ∧
    (∃ hm lm, detect_alpha_modes demo2 = (some hm, some lm) ∧ lm < hm ∧
      alphaOccurs demo2 hm ∧ alphaOccurs demo2 lm ∧
      ∀ a, alphaOccurs demo2 a → a ≠ hm → a ≠ lm →
        keyBelow demo2 a hm ∧ keyBelow demo2 a lm) :=
  ⟨by decide, by decide, by decide,
   (detector_selects_top_two demo2 (by decide)).1 102 38 (by decide) (by decide)
     (by decide)⟩

/-- C1: on an image whose non-zero alphas are exactly the two distinct values
A > B, the detector reports (A, B) and remapping sends alpha A to
opaque_alpha, alpha B to transparent_alpha, and leaves every other alpha
(including 0) unchanged — mapping by mode identity, for any target pair. -/
theorem two_mode_remap (img : Image) (A B opaque_alpha transparent_alpha : Nat)
    (hv : AlphaValid img) (hBpos : 0 < B) (hBA : B < A)
    (hAc : 0 < alphaCount img A) (hBc : 0 < alphaCount img B)
    (honly : ∀ p ∈ img.pixels, p.a = 0 ∨ p.a = A ∨ p.a = B) :
    detect_alpha_modes img = (some A, some B) ∧
    (transform_image img opaque_alpha transparent_alpha).1.pixels =
      img.pixels.map (fun p =>
        if p.a = A then { p with a := opaque_alpha }
        else if p.a = B then { p with a := transparent_alpha }
        else p) := by
  have hA : alphaOccurs img A := ⟨by omega, hAc⟩
  have hB : alphaOccurs img B := ⟨hBpos, hBc⟩
  have hmA := occurs_entry_mem hv hA
  have hmB := occurs_entry_mem hv hB
  have hABne : A ≠ B := by omega
  have hlen : 2 ≤ (nonZeroEntries img).length :=
    two_le_length_of_mem hmA hmB (by simp [Prod.mk.injEq, hABne])
  obtain ⟨t1, t2, h1, h2, hne, hdom, hd⟩ := detect_top_two img hlen
  have hent : ∀ e ∈ nonZeroEntries img,
      e = (A, alphaCount img A) ∨ e = (B, alphaCount img B) := by
    intro e hee
    obtain ⟨hepos, _, hecount, hcpos⟩ := mem_nonZeroEntries.1 hee
    obtain ⟨p, hp, hpa⟩ := alphaCount_pos.1 (hecount ▸ hcpos)
    rcases honly p hp with h | h | h
    · omega
    · have he1 : e.1 = A := by omega
      rw [← mem_entry_eta hee, he1]
      exact Or.inl rfl
    · have he1 : e.1 = B := by omega
      rw [← mem_entry_eta hee, he1]
      exact Or.inr rfl
  have hdetect : detect_alpha_modes img = (some A, some B) := by
    rcases hent t1 h1 with rfl | rfl <;> rcases hent t2 h2 with rfl | rfl
    · exact absurd rfl hne
    · rw [hd]
      dsimp only
      rw [Nat.max_eq_left hBA.le, Nat.min_eq_right hBA.le]
    · rw [hd]
      dsimp only
      rw [Nat.max_eq_right hBA.le, Nat.min_eq_left hBA.le]
    · exact absurd rfl hne
  refine ⟨hdetect, ?_⟩
  rw [transform_image_fst]
  apply List.map_congr_left
  intro p hp
  rw [hdetect]
  dsimp only
  have hlow0 : ¬ ((some B = none ∨ some B = some 0) ∧ 0 < p.a) := by
    rintro ⟨h | h, -⟩
    · cases h
    · rw [Option.some.injEq] at h
      omega
  unfold remapPixel
  rw [if_neg hlow0]
  by_cases hpA : p.a = A
  · rw [if_pos (by rw [hpA]), if_pos hpA]
  · rw [if_neg (fun hcon => hpA (Option.some.inj hcon).symm), if_neg hpA]
    by_cases hpB : p.a = B
    · rw [if_pos (by rw [hpB]), if_pos hpB]
    · rw [if_neg (fun hcon => hpB (Option.some.inj hcon).symm), if_neg hpB]

theorem two_mode_remap_witness :
    (AlphaValid demo2 ∧ 0 < 38 ∧ 38 < 102 ∧ 0 < alphaCount demo2 102 ∧
      0 < alphaCount demo2 38 ∧
      ∀ p ∈ demo2.pixels, p.a = 0 ∨ p.a = 102 ∨ p.a = 38) ∧
    detect_alpha_modes demo2 = (some 102, some 38) ∧
    (transform_image demo2 26 64).1.pixels =
      demo2.pixels.map (fun p =>
        if p.a = 102 then { p with a := 26 }
        else if p.a = 38 then { p with a := 64 }
        else p) :=
  ⟨⟨by decide, by decide, by decide, by decide, by decide, by decide⟩,
   two_mode_remap demo2 102 38 26 64 (by decide) (by decide) (by decide)
     (by decide) (by decide) (by decide)⟩

/-- C5 counterexample: the identity case on the spec's 2x1 image.  The output
alphas are unchanged (0 pixels actually differ), yet the reported `changed`
count is 2, so the diagnostic count is not the number of pixels whose alpha
value was changed. -/
theorem changed_count_counterexample :
    (transform_image demo2 102 38).1.pixels = demo2.pixels ∧
    (transform_image demo2 102 38).2 = 2 ∧
    alphaDiffCount demo2.pixels (transform_image demo2 102 38).1.pixels = 0 ∧
    (transform_image demo2 102 38).2 ≠
      alphaDiffCount demo2.pixels (transform_image demo2 102 38).1.pixels := by
  decide

/-- C5 amended: the diagnostic count equals the number of pixels to which a
remap rule applied — pixels with alpha > 0 when the low mode is absent, and
pixels whose alpha equals one of the two modes otherwise — which can exceed
the number of pixels whose alpha actually changed; in the identity case
(targets equal to the modes) the output image is unchanged. -/
theorem changed_counts_rule_applications (img : Image)
    (opaque_alpha transparent_alpha : Nat) :
    ((detect_alpha_modes img).2 = none →
      (transform_image img opaque_alpha transparent_alpha).2 =
        img.pixels.countP (fun p => decide (0 < p.a))) ∧
    (∀ hm lm, detect_alpha_modes img = (some hm, some lm) →
      (transform_image img opaque_alpha transparent_alpha).2 =
        img.pixels.countP (fun p => decide (p.a = hm ∨ p.a = lm))) ∧
    (∀ hm lm, detect_alpha_modes img = (some hm, some lm) →
      (transform_image img hm lm).1 = img) := by
  refine ⟨?_, ?_, ?_⟩
  · intro hl
    rw [transform_image_snd]
    apply List.countP_congr
    intro p hp
    unfold remapHits
    rw [hl]
    simp only [decide_eq_true_eq]
    constructor
    · rintro (⟨-, h⟩ | h | h)
      · exact h
      · have := (detect_pos img).1 p.a h
        omega
      · cases h
    · intro h
      exact Or.inl ⟨Or.inl trivial, h⟩
  · intro hm lm hd
    have hlpos := ((detect_pos img).2 lm (by rw [hd])).1
    rw [transform_image_snd]
    apply List.countP_congr
    intro p hp
    unfold remapHits
    rw [hd]
    simp only [decide_eq_true_eq]
    constructor
    · rintro (⟨h | h, -⟩ | h | h)
      · cases h
      · rw [Option.some.injEq] at h
        omega
      · exact Or.inl (Option.some.inj h).symm
      · exact Or.inr (Option.some.inj h).symm
    · rintro (h | h)
      · exact Or.inr (Or.inl (by rw [h]))
      · exact Or.inr (Or.inr (by rw [h]))
  · intro hm lm hd
    have hlpos := ((detect_pos img).2 lm (by rw [hd])).1
    have hmap : img.pixels.map
        (remapPixel (detect_alpha_modes img).1 (detect_alpha_modes img).2
          hm lm) = img.pixels := by
      apply List.map_congr_left ?_ |>.trans (List.map_id _)
      intro p hp
      rw [hd]
      dsimp only
      have hlow0 : ¬ ((some lm = none ∨ some lm = some 0) ∧ 0 < p.a) := by
        rintro ⟨h | h, -⟩
        · cases h
        · rw [Option.some.injEq] at h
          omega
      unfold remapPixel
      rw [if_neg hlow0]
      obtain ⟨pr, pg, pb, pa⟩ := p
      by_cases hpA : pa = hm
      · rw [if_pos (by rw [hpA]), hpA]
        rfl
      · rw [if_neg (fun hcon => hpA (Option.some.inj hcon).symm)]
        by_cases hpB : pa = lm
        · rw [if_pos (by rw [hpB]), hpB]
          rfl
        · rw [if_neg (fun hcon => hpB (Option.some.inj hcon).symm)]
          rfl
    rw [transform_image_fst, hmap]

theorem changed_counts_rule_applications_witness :
    (detect_alpha_modes demo1).2 = none ∧
    (transform_image demo1 102 38).2 =
      demo1.pixels.countP (fun p => decide (0 < p.a)) ∧
    detect_alpha_modes demo2 = (some 102, some 38) ∧
    (transform_image demo2 26 64).2 =
      demo2.pixels.countP (fun p => decide (p.a = 102 ∨ p.a = 38)) ∧
    (transform_image demo2 102 38).1 = demo2 :=
  ⟨by decide,
   (changed_counts_rule_applications demo1 102 38).1 (by decide),
   by decide,
   (changed_counts_rule_applications demo2 26 64).2.1 102 38 (by decide),
   (changed_counts_rule_applications demo2 102 38).2.2 102 38 (by decide)⟩

/-- A folder listing with a corrupt png followed by a readable one. -/
def demoFolder : List FileEntry :=
  [⟨"bad.png", none⟩, ⟨"good.png", some demo2⟩]

/-- A folder listing with one readable png and one non-png file. -/
def demoGoodFolder : List FileEntry :=
  [⟨"good.png", some demo2⟩, ⟨"notes.txt", none⟩]

/-- The outputs written by a folder run, whether or not it aborted. -/
def batchOutputs : Except BatchOut BatchOut → List (String × Image)
  | Except.ok (outs, _) => outs
  | Except.error (outs, _) => outs

/-- C4 counterexample: with a corrupt first file, the folder run aborts before
attempting the readable `good.png` — no output at all is produced — so the
batch does not continue with the remaining files; the uncaught error does make
the process exit non-zero. -/
theorem batch_abort_counterexample :
    processFiles 102 38 demoFolder = Except.error ([], 0) ∧
    batchOutputs (processFiles 102 38 demoFolder) = [] ∧
    exitStatus (script_main ⟨some demoFolder, some [], some [], none⟩) = 1 := by
  refine ⟨rfl, rfl, rfl⟩

/-- C4 amended: an unreadable or corrupt image aborts the whole batch, not just
that file: the folder loop stops at the first corrupt `.png` (only the
preceding readable files produce outputs, later files are never attempted) and
the uncaught error propagates out of `main`, so the process reports a non-zero
completion status. -/
theorem decode_failure_aborts_batch (opaque_alpha transparent_alpha : Nat)
    (pre post : List FileEntry) (f : FileEntry)
    (hpng : isPngName f.name = true) (hbad : f.content = none)
    (hpre : ∀ g ∈ pre, isPngName g.name = true → g.content ≠ none) :
    (∃ outs, processFiles opaque_alpha transparent_alpha (pre ++ f :: post) =
        Except.error (outs, outs.length) ∧
      outs.length = (pre.filter (fun g => isPngName g.name)).length) ∧
    (∀ corners centers border rest total,
      exitStatus (runVariants ⟨some (pre ++ f :: post), corners, centers, border⟩
        ((opaque_alpha, transparent_alpha) :: rest) total) = 1) := by
  have key : ∀ pre2 : List FileEntry,
      (∀ g ∈ pre2, isPngName g.name = true → g.content ≠ none) →
      ∃ outs, processFiles opaque_alpha transparent_alpha (pre2 ++ f :: post) =
          Except.error (outs, outs.length) ∧
        outs.length = (pre2.filter (fun g => isPngName g.name)).length := by
    intro pre2
    induction pre2 with
    | nil =>
      intro _
      refine ⟨[], ?_, by simp⟩
      simp only [List.nil_append, processFiles, if_pos hpng]
      rw [hbad]
      rfl
    | cons g t ih =>
      intro hpre2
      obtain ⟨outs, houts, hlen⟩ := ih (fun x hx h => hpre2 x (by simp [hx]) h)
      by_cases hgp : isPngName g.name = true
      · obtain ⟨img, himg⟩ :=
          Option.ne_none_iff_exists'.1 (hpre2 g (by simp) hgp)
        refine ⟨(g.name, (transform_image img opaque_alpha transparent_alpha).1)
          :: outs, ?_, ?_⟩
        · simp only [List.cons_append, processFiles, if_pos hgp, List.append_eq]
          rw [himg, houts]
          simp
        · simp [List.filter_cons, hgp, hlen]
      · refine ⟨outs, ?_, ?_⟩
        · simp only [List.cons_append, processFiles, if_neg hgp]
          exact houts
        · simp [List.filter_cons, hgp, hlen]
  obtain ⟨outs, houts, hlen⟩ := key pre hpre
  refine ⟨⟨outs, houts, hlen⟩, ?_⟩
  intro corners centers border rest total
  simp only [runVariants, runVariant, process_folder, houts]
  rfl

theorem decode_failure_aborts_batch_witness :
    (isPngName "bad.png" = true ∧ (none : Option Image) = none ∧
      (∀ g ∈ [(⟨"a.png", some demo2⟩ : FileEntry)],
        isPngName g.name = true → g.content ≠ none)) ∧
    (∃ outs, processFiles 102 38
        ([⟨"a.png", some demo2⟩] ++ (⟨"bad.png", none⟩ : FileEntry) ::
          [⟨"c.png", some demo2⟩]) = Except.error (outs, outs.length) ∧
      outs.length =
        ([(⟨"a.png", some demo2⟩ : FileEntry)].filter
          (fun g => isPngName g.name)).length) ∧
    exitStatus (runVariants
      ⟨some ([⟨"a.png", some demo2⟩] ++ (⟨"bad.png", none⟩ : FileEntry) ::
        [⟨"c.png", some demo2⟩]), none, none, none⟩ ((102, 38) :: []) 0) = 1 := by
  have h := decode_failure_aborts_batch 102 38 [⟨"a.png", some demo2⟩]
    [⟨"c.png", some demo2⟩] ⟨"bad.png", none⟩ (by decide) rfl
    (by intro g hg hp; simp at hg; rw [hg]; simp)
  exact ⟨⟨by decide, rfl, by intro g hg hp; simp at hg; rw [hg]; simp⟩,
    h.1, h.2 none none none [] 0⟩

/-- C8: a missing input folder is skipped without a fatal error — it behaves
exactly like an empty folder and contributes zero — and on a successful folder
run the count equals the number of `.png` files processed (each processed file
adds exactly one). -/
theorem missing_folder_skip_and_counts (opaque_alpha transparent_alpha : Nat) :
    process_folder none opaque_alpha transparent_alpha = Except.ok ([], 0) ∧
    (∀ corners centers border,
      runVariant ⟨none, corners, centers, border⟩ opaque_alpha transparent_alpha =
        runVariant ⟨some [], corners, centers, border⟩
          opaque_alpha transparent_alpha) ∧
    (∀ files outs n,
      processFiles opaque_alpha transparent_alpha files = Except.ok (outs, n) →
      n = outs.length ∧
      n = (files.filter (fun g => isPngName g.name)).length) := by
  refine ⟨rfl, fun corners centers border => rfl, ?_⟩
  intro files
  induction files with
  | nil =>
    intro outs n h
    simp only [processFiles, Except.ok.injEq, Prod.mk.injEq] at h
    obtain ⟨rfl, rfl⟩ := h
    exact ⟨rfl, rfl⟩
  | cons g t ih =>
    intro outs n h
    by_cases hgp : isPngName g.name = true
    · simp only [processFiles, if_pos hgp] at h
      cases hc : g.content with
      | none =>
        rw [hc] at h
        cases h
      | some img =>
        rw [hc] at h
        cases ht : processFiles opaque_alpha transparent_alpha t with
        | ok p =>
          obtain ⟨outs2, n2⟩ := p
          rw [ht] at h
          simp only [Except.ok.injEq, Prod.mk.injEq] at h
          obtain ⟨rfl, rfl⟩ := h
          obtain ⟨h1, h2⟩ := ih outs2 n2 ht
          constructor
          · simp [h1]
          · simp [List.filter_cons, hgp, h2]
        | error e =>
          rw [ht] at h
          cases h
    · simp only [processFiles, if_neg hgp] at h
      obtain ⟨h1, h2⟩ := ih outs n h
      refine ⟨h1, ?_⟩
      simp [List.filter_cons, hgp, h2]

theorem missing_folder_skip_and_counts_witness :
    process_folder none 102 38 = Except.ok ([], 0) ∧
    processFiles 102 38 demoGoodFolder = Except.ok ([("good.png", demo2)], 1) ∧
    (1 = [("good.png", demo2)].length ∧
      1 = (demoGoodFolder.filter (fun g => isPngName g.name)).length) :=
  ⟨(missing_folder_skip_and_counts 102 38).1, rfl,
   (missing_folder_skip_and_counts 102 38).2.2 demoGoodFolder
     [("good.png", demo2)] 1 rfl⟩

